import Mathlib

/-!
Shallow embedding of the candidate-scoring pipeline of `app.py` in the
resume-ranker repository: skill extraction from a job description, the
per-candidate sub-scores, the five-factor composite score, the explicit
recruiter-weighted scoring mode, and the batch analysis run.

Numbers: the Python code computes with IEEE doubles; the embedding uses ℚ,
so the arithmetic identities of the formulas are exact.  Text: Python `str`
is modelled as Lean `String` / `List Char`; `str.lower`, `str.strip` and
the regular expressions of the source are modelled character by character
on the ASCII range, which covers every character class the source matches
against.
-/

namespace ResumeRanker

/-- Python `\s` on the ASCII range: space, tab, newline, carriage return,
vertical tab (11), form feed (12). -/
def isSpaceChar (c : Char) : Bool :=
  c = ' ' || c = '\t' || c = '\n' || c = '\r' || c.toNat = 11 || c.toNat = 12

/-- Python `str.lower` on the ASCII range, as a character list. -/
def lowerData (s : String) : List Char := s.data.map Char.toLower

/-- does `pre` begin `l`?  Used to model regex literals and anchored
matches. -/
def startsWithChars : List Char → List Char → Bool
  | [], _ => true
  | _ :: _, [] => false
  | a :: as, b :: bs => a = b && startsWithChars as bs

/-- Python substring containment `needle in hay`.  The empty needle is
contained in everything, as in Python. -/
def hasSubstr (hay needle : List Char) : Bool :=
  match hay with
  | [] => startsWithChars needle []
  | c :: t => startsWithChars needle (c :: t) || hasSubstr t needle

/-- separator class of `re.split(r"[\s,\n\/\\]+", ...)` in
`extract_job_skills`. -/
def isSepChar (c : Char) : Bool := isSpaceChar c || c = ',' || c = '/' || c = '\\'

/-- `re.split` on single separator characters.  `re.split` with the `+`
quantifier merges runs of separators; this version instead emits an empty
piece between two adjacent separators.  The difference is invisible to
both callers, which discard empty pieces (the skill tokenizer drops empty
tokens, the tf-idf tokenizer drops pieces shorter than two characters). -/
def splitEvery (sep : Char → Bool) : List Char → List (List Char)
  | [] => [[]]
  | c :: rest =>
    let r := splitEvery sep rest
    if sep c then [] :: r else (c :: r.headD []) :: r.tail

/-- the character class `[a-zA-Z0-9.+_-]` kept by the `re.sub` cleanup in
`extract_job_skills`. -/
def isAllowedChar (c : Char) : Bool :=
  ('a' ≤ c && c ≤ 'z') || ('A' ≤ c && c ≤ 'Z') || c.isDigit ||
    c = '.' || c = '+' || c = '_' || c = '-'

/-- drop characters satisfying `p` from both ends (Python `str.strip`). -/
def stripChars (p : Char → Bool) (l : List Char) : List Char :=
  ((l.dropWhile p).reverse.dropWhile p).reverse

/-- `re.sub(r"[^a-zA-Z0-9.+_-]", "", token).strip().strip('.')` from
`extract_job_skills`.  The `.strip()` is a no-op after the substitution
(whitespace is not in the kept class) but is modelled faithfully. -/
def cleanToken (t : List Char) : List Char :=
  stripChars (fun c => c = '.') (stripChars isSpaceChar (t.filter isAllowedChar))

/-- the `COMMON_WORDS` stop-word set of `app.py` (the penultimate
connective entry is the literal mojibake string present in the source). -/
def COMMON_WORDS : List String :=
  ["and", "or", "the", "to", "a", "an", "with", "in", "of", "for",
   "on", "as", "by", "is", "are", "be", "will", "you", "your",
   "we", "our", "they", "their", "it", "this", "that", "from",
   "years", "year", "yrs", "experience", "responsibilities", "responsibility",
   "skills", "requirements", "must", "have", "strong", "solid", "familiar",
   "familiarity", "communication", "problem", "solving",
   "problem‚Äësolving", "team", "summary", "apply"]

/-- loop body of `extract_job_skills`: `acc.1` is the `clean` list, `acc.2`
the `seen` set (a Python `set` queried only through membership, modelled as
a list).  The source lowercases the whole description before splitting, so
the extra `tok.lower()` of the source is the identity here. -/
def extractStep (acc : List String × List String) (token : List Char) :
    List String × List String :=
  let tok := cleanToken token
  if tok = [] then acc
  else if tok.any Char.isDigit then acc
  else
    let tokLower := String.mk tok
    if COMMON_WORDS.contains tokLower then acc
    else if acc.2.contains tokLower then acc
    else (acc.1 ++ [tokLower], acc.2 ++ [tokLower])

/-- `extract_job_skills` (app.py, lines 39-66). -/
def extract_job_skills (description : String) : List String :=
  ((splitEvery isSepChar (lowerData description)).foldl extractStep ([], [])).1

/-- `extract_resume_skills` (app.py, lines 68-87): job tokens occurring as
substrings of the lowercased resume text, in job order. -/
def extract_resume_skills (resumeText : String) (jobTokens : List String) : List String :=
  jobTokens.filter (fun t => hasSubstr (lowerData resumeText) t.data)

/-- digit run to a natural number (`int` of the captured group). -/
def natOfDigits (ds : List Char) : Nat :=
  ds.foldl (fun n c => 10 * n + (c.toNat - 48)) 0

/-- one anchored attempt of `(\d+)\s*(?:\+)?\s*(?:years|yrs)` (with
`allowPlus := true`, used by `parse_required_years`) or of
`(\d+)\s*(?:years|yrs)` (`allowPlus := false`, used by
`parse_resume_years`).  Since the unit literals begin with a letter, the
greedy `\d+` and `\s*` need no backtracking: the match is digits, then
spaces, then an optional plus and spaces, then the literal.  Returns the
captured integer and the rest of the input after the match. -/
def matchYearsAt (allowPlus : Bool) (l : List Char) : Option (Nat × List Char) :=
  let ds := l.takeWhile Char.isDigit
  let r1 := l.dropWhile Char.isDigit
  if ds = [] then none
  else
    let r2 := r1.dropWhile isSpaceChar
    let r3 := if allowPlus then
        match r2 with
        | '+' :: t => t.dropWhile isSpaceChar
        | _ => r2
      else r2
    if startsWithChars "years".data r3 then some (natOfDigits ds, r3.drop 5)
    else if startsWithChars "yrs".data r3 then some (natOfDigits ds, r3.drop 3)
    else none

/-- `re.search` for the years pattern: leftmost match, trying successive
start positions. -/
def searchYears (allowPlus : Bool) : List Char → Option Nat
  | [] => none
  | c :: rest =>
    match matchYearsAt allowPlus (c :: rest) with
    | some p => some p.1
    | none => searchYears allowPlus rest

/-- `re.findall` for the years pattern: non-overlapping matches, scanning
left to right and continuing after the end of each match.  `fuel` bounds
the recursion; a match always consumes at least one character, so fuel
equal to the text length is enough. -/
def findAllGo (allowPlus : Bool) : Nat → List Char → List Nat
  | 0, _ => []
  | _, [] => []
  | fuel + 1, c :: rest =>
    match matchYearsAt allowPlus (c :: rest) with
    | some nr => nr.1 :: findAllGo allowPlus fuel nr.2
    | none => findAllGo allowPlus fuel rest

def findAllYears (allowPlus : Bool) (l : List Char) : List Nat :=
  findAllGo allowPlus l.length l

/-- `parse_required_years` (app.py, lines 92-95). -/
def parse_required_years (description : String) : Nat :=
  (searchYears true (lowerData description)).getD 0

/-- `parse_resume_years` (app.py, lines 97-104).  Python's `max` over the
non-empty list of found naturals, and 0 when none are found, both equal a
fold of `max` from 0. -/
def parse_resume_years (text : String) : Nat :=
  (findAllYears false (lowerData text)).foldl Nat.max 0

/-- the keyword list of `has_degree` (app.py, lines 106-113). -/
def degree_keywords : List String :=
  ["bachelor", "bachelors", "master", "masters", "phd", "associate",
   "degree", "certification", "certificate"]

/-- `has_degree` (app.py, lines 106-113). -/
def has_degree (text : String) : Bool :=
  degree_keywords.any (fun kw => hasSubstr (lowerData text) kw.data)

/-- `job_requires_degree` (app.py, line 350): note the list has only four
keywords. -/
def job_requires_degree (description : String) : Bool :=
  (["bachelor", "master", "degree", "certification"] : List String).any
    (fun w => hasSubstr (lowerData description) w.data)

/-- the skill-ratio expression of line 367. -/
def skill_ratio (matchedSkills jobTokens : List String) : ℚ :=
  if jobTokens ≠ [] then (matchedSkills.length : ℚ) / (jobTokens.length : ℚ) else 0

/-- the experience-ratio branch of lines 371-374. -/
def experience_ratio (requiredYears candidateYears : Nat) : ℚ :=
  if 0 < requiredYears then min ((candidateYears : ℚ) / (requiredYears : ℚ)) 1 else 1

/-- the education-match branch of lines 375-379. -/
def education_match (description resumeText : String) : ℚ :=
  if job_requires_degree description then (if has_degree resumeText then 1 else 0) else 1

/-- the composite formula of lines 380-387. -/
def compositeScore (skillRatio semanticSim experienceRatio titleSim educationMatch : ℚ) : ℚ :=
  0.40 * skillRatio + 0.20 * semanticSim + 0.15 * experienceRatio +
    0.10 * titleSim + 0.10 * educationMatch + 0.05 * 1.0

structure Job where
  title : String
  description : String

/-- the required-years selection of lines 346-349: the recruiter's input
when positive, else the value parsed from the description. -/
def effectiveRequiredYears (requiredExpInput : Nat) (description : String) : Nat :=
  if 0 < requiredExpInput then requiredExpInput else parse_required_years description

/-- body of the composite scoring loop (lines 365-388) for one candidate.
The corpus-relative tf-idf cosine similarities enter through the
`semanticSim` / `titleSim` arguments, exactly as `sem_similarities[idx]`
and `title_similarities[idx]` enter the loop in the source. -/
def compositeCandidateScore (jobTokens : List String) (requiredYears : Nat)
    (jobRequiresDegree : Bool) (resumeText : String) (semanticSim titleSim : ℚ) : ℚ :=
  let matchedSkills := extract_resume_skills resumeText jobTokens
  let skillRatio := skill_ratio matchedSkills jobTokens
  let candidateYears := parse_resume_years resumeText
  let experienceRatio := experience_ratio requiredYears candidateYears
  let educationMatch : ℚ :=
    if jobRequiresDegree then (if has_degree resumeText then 1 else 0) else 1
  compositeScore skillRatio semanticSim experienceRatio titleSim educationMatch

/-- the `scores.append` loop of the composite branch; `rows` pairs each
candidate's resume text with its two similarity entries. -/
def compositeScoresRun (jobTokens : List String) (requiredYears : Nat)
    (jobRequiresDegree : Bool) (rows : List (String × ℚ × ℚ)) : List ℚ :=
  rows.foldl
    (fun scores row =>
      scores ++ [compositeCandidateScore jobTokens requiredYears jobRequiresDegree
        row.1 row.2.1 row.2.2])
    []

/-- a character of Python `\w` on the ASCII range: letters, digits,
underscore. -/
def isWordChar (c : Char) : Bool := c.isAlphanum || c = '_'

/-- Modelled from scikit-learn: the default `token_pattern`
`(?u)\b\w\w+\b` of `TfidfVectorizer` applied to the lowercased document —
maximal runs of word characters of length at least two. -/
def sklearnTokens (doc : String) : List String :=
  ((splitEvery (fun c => !isWordChar c) (lowerData doc)).filter
    (fun t => 2 ≤ t.length)).map String.mk

/-- Modelled from scikit-learn: with `stop_words="english"` a document
contributes to the fitted vocabulary iff it has a token outside the
stop-word list (`S` stands for `ENGLISH_STOP_WORDS`, passed as a
parameter). -/
def docHasVocab (S : List String) (doc : String) : Bool :=
  (sklearnTokens doc).any (fun t => !S.contains t)

/-- the composite branch of the analysis block (lines 342-402) with the
failure points of its library calls made explicit.  Modelled from
scikit-learn: `TfidfVectorizer.fit_transform` raises
`ValueError: empty vocabulary` when no document of its corpus contributes
a vocabulary term, and `cosine_similarity` raises when given a 0-row
matrix (`check_array` demands at least one sample); the source fits the
description corpus, takes cosine similarities, fits the title corpus, and
takes cosine similarities, in that order.  On success the score list of
the loop is returned. -/
def compositeRunE (S : List String) (job : Job) (requiredExpInput : Nat)
    (resumes : List String) (semSims titleSims : List ℚ) : Except String (List ℚ) :=
  if (job.description :: resumes).all (fun d => !docHasVocab S d) then
    Except.error "empty vocabulary"
  else if resumes.isEmpty then
    Except.error "0 samples"
  else if (job.title :: resumes).all (fun d => !docHasVocab S d) then
    Except.error "empty vocabulary"
  else
    Except.ok (compositeScoresRun (extract_job_skills job.description)
      (effectiveRequiredYears requiredExpInput job.description)
      (job_requires_degree job.description)
      (resumes.zip (semSims.zip titleSims)))

/-- one row of the recruiter-defined skill form (`st.session_state.skills_list`). -/
structure SkillEntry where
  skill : String
  weight : ℚ

/-- Python `str.strip`. -/
def pyStrip (s : String) : String := String.mk (stripChars isSpaceChar s.data)

/-- Python `str.lower`. -/
def pyLower (s : String) : String := String.mk (lowerData s)

/-- lines 300-306: keep the entries whose skill string is truthy
(non-empty before stripping); record `skill.strip().lower()` together with
the weight.  The source keeps skills and weights in two parallel lists and
zips them in the scoring loop; the pair list is that zip. -/
def user_skills_weights (entries : List SkillEntry) : List (String × ℚ) :=
  entries.filterMap (fun e =>
    if e.skill ≠ "" then some (pyLower (pyStrip e.skill), e.weight) else none)

def totalWeight (sw : List (String × ℚ)) : ℚ := (sw.map Prod.snd).sum

/-- lines 309-311: each weight divided by the total. -/
def normalizeWeights (sw : List (String × ℚ)) : List (String × ℚ) :=
  sw.map (fun p => (p.1, p.2 / totalWeight sw))

/-- inner loop of the explicit-weighted branch (lines 318-326): running
score and matched-skill list for one resume; the guard is
`if skill and skill in resume_lower`. -/
def scoreAndMatch (skills : List (String × ℚ)) (resumeText : String) : ℚ × List String :=
  skills.foldl
    (fun acc sw =>
      if sw.1 ≠ "" && hasSubstr (lowerData resumeText) sw.1.data then
        (acc.1 + sw.2, acc.2 ++ [sw.1])
      else acc)
    (0, [])

/-- the `weighted_scores` / `matched_user_skills` loop (lines 315-326)
over all candidates. -/
def weightedScoresRun (skills : List (String × ℚ)) (resumes : List String) :
    List ℚ × List (List String) :=
  resumes.foldl
    (fun acc r =>
      (acc.1 ++ [(scoreAndMatch skills r).1], acc.2 ++ [(scoreAndMatch skills r).2]))
    ([], [])

/-! ### Deduplication, restated as filter-then-dedup (for the tokenizer) -/

/-- keep the first occurrence of each element, skipping elements already in
`seen`; `seen` grows exactly as the `seen` set of `extract_job_skills`
does. -/
def dedupNew (seen : List String) : List String → List String
  | [] => []
  | x :: xs =>
    if seen.contains x then dedupNew seen xs
    else x :: dedupNew (seen ++ [x]) xs

/-- deduplicate keeping the first occurrence of each element. -/
def dedupFirst (l : List String) : List String := dedupNew [] l

/-- the keep-or-drop decision of the tokenizer on a cleaned token: drop
empty tokens, tokens containing a digit, and stop words. -/
def keepClean (tok : List Char) : Option String :=
  if tok = [] then none
  else if tok.any Char.isDigit then none
  else if COMMON_WORDS.contains (String.mk tok) then none
  else some (String.mk tok)

/-- the tokenizer restated as a three-stage pipeline: split and clean every
token, keep the tokens that are non-empty, digit-free and not stop words,
then deduplicate keeping first occurrences. -/
def tokenPipeline (description : String) : List String :=
  dedupFirst
    ((splitEvery isSepChar (lowerData description)).filterMap
      (fun t => keepClean (cleanToken t)))

/-! ### Sums of weight lists (for the explicit-weighted mode) -/

/-- total weight carried by the pairs with an empty skill string. -/
def emptyWeight (sw : List (String × ℚ)) : ℚ :=
  ((sw.filter (fun p => p.1 = "")).map Prod.snd).sum

/-! ### The ranking sort, modelled from pandas/numpy

`df.sort_values("Score", ascending=False)` sorts with the default
`kind='quicksort'` (numpy's introsort), for which numpy and pandas document
no stability guarantee — pandas names `'mergesort'`/`'stable'` as the only
stable kinds.  `ValidArgsort` is the documented contract of any `kind`:
the returned index list is a permutation of the positions that puts the
values in ascending order.  `nargsortDesc` is pandas'
`nargsort(ascending=False)` on NaN-free data: reverse the values and the
positions, argsort, then reverse the indexer. -/

def getQ (xs : List ℚ) (i : Nat) : ℚ := xs.getD i 0

/-- the documented contract of `numpy.argsort` for every `kind`:
a permutation of the positions, values ascending along it.  Stability is
deliberately absent: the default quicksort does not promise it. -/
def ValidArgsort (f : List ℚ → List Nat) : Prop :=
  ∀ xs : List ℚ,
    (f xs).Perm (List.range xs.length) ∧
      (f xs).Pairwise (fun i j => getQ xs i ≤ getQ xs j)

/-- pandas `nargsort` with `ascending=False` on NaN-free input, for a given
argsort implementation `f`. -/
def nargsortDesc (f : List ℚ → List Nat) (xs : List ℚ) : List Nat :=
  let rev := xs.reverse
  let revIdx := (List.range xs.length).reverse
  ((f rev).map (fun j => revIdx.getD j 0)).reverse

/-- a stable argsort (what `kind='stable'` would provide): indices sorted
by value with Mathlib's stable insertion sort. -/
def argsortStable (xs : List ℚ) : List Nat :=
  (List.range xs.length).insertionSort (fun i j => getQ xs i ≤ getQ xs j)

/-- an argsort satisfying the documented contract that orders the tied
positions of the two-element all-tied input in reverse: permitted by the
quicksort contract, and what numpy's introsort in fact does to tied runs
longer than its insertion-sort threshold. -/
def tieReversingArgsort (xs : List ℚ) : List Nat :=
  if xs = [1, 1] then [1, 0] else argsortStable xs

/-! ### Definitions following the claims' words (for refutation only)

Each `claim…` definition below transcribes the words of a claim of the
specification, to be compared with the corresponding definition above that
was transcribed from the source. -/

/-- Follows the words of claim C3: education match with the seven keywords
bachelor, master, phd, associate, degree, certification, certificate
applied to the job description as well as to the resume. -/
def claimEducationMatch (description resumeText : String) : ℚ :=
  let kws : List String :=
    ["bachelor", "master", "phd", "associate", "degree", "certification", "certificate"]
  if kws.any (fun kw => hasSubstr (lowerData description) kw.data) then
    (if kws.any (fun kw => hasSubstr (lowerData resumeText) kw.data) then 1 else 0)
  else 1

/-- Follows the words of claim C4: candidate years as the maximum integer
found in the resume text by "the same pattern" as the job-description one,
i.e. with the optional plus sign allowed. -/
def claimResumeYears (text : String) : Nat :=
  (findAllYears true (lowerData text)).foldl Nat.max 0

/-- Follows the words of claim C5: the sum of the normalized weights of
the skills whose (lowercase) string occurs as a substring of the
lowercased resume text — with no non-emptiness guard. -/
def claimExplicitScore (skills : List (String × ℚ)) (resumeText : String) : ℚ :=
  ((skills.filter (fun p => hasSubstr (lowerData resumeText) p.1.data)).map Prod.snd).sum

/-! ### Helper lemmas -/

theorem startsWithChars_of_append (as bs h : List Char)
    (hw : startsWithChars (as ++ bs) h = true) : startsWithChars as h = true := by
  induction as generalizing h with
  | nil => rfl
  | cons a t ih =>
    cases h with
    | nil => simp [startsWithChars] at hw
    | cons c u =>
      simp only [List.cons_append, startsWithChars, Bool.and_eq_true] at hw ⊢
      exact ⟨hw.1, ih u hw.2⟩

/-- a string containing `as ++ bs` contains `as`: used to reduce the nine
degree keywords of the source to the seven of the specification. -/
theorem hasSubstr_of_append (hay as bs : List Char)
    (hw : hasSubstr hay (as ++ bs) = true) : hasSubstr hay as = true := by
  induction hay with
  | nil =>
    cases as with
    | nil => rfl
    | cons a t => simp [hasSubstr, startsWithChars] at hw
  | cons c t ih =>
    simp only [hasSubstr, Bool.or_eq_true] at hw ⊢
    rcases hw with hw | hw
    · exact Or.inl (startsWithChars_of_append as bs _ hw)
    · exact Or.inr (ih hw)

/-- the seven-keyword degree check of the specification's words. -/
def sevenKeywordDegree (text : String) : Bool :=
  (["bachelor", "master", "phd", "associate", "degree", "certification",
    "certificate"] : List String).any
    (fun kw => hasSubstr (lowerData text) kw.data)

/-- the nine keywords of `has_degree` and the specification's seven
keywords define the same substring check: `bachelors` and `masters`
contain `bachelor` and `master`. -/
theorem has_degree_eq_sevenKeywordDegree (t : String) :
    has_degree t = sevenKeywordDegree t := by
  apply Bool.eq_iff_iff.mpr
  unfold has_degree sevenKeywordDegree degree_keywords
  simp only [List.any_eq_true, List.mem_cons, List.not_mem_nil, or_false]
  constructor
  · rintro ⟨kw, hkw, hsub⟩
    rcases hkw with h | h | h | h | h | h | h | h | h <;> subst h
    · exact ⟨"bachelor", by simp, hsub⟩
    · exact ⟨"bachelor", by simp,
        hasSubstr_of_append _ "bachelor".data ['s'] (by exact hsub)⟩
    · exact ⟨"master", by simp, hsub⟩
    · exact ⟨"master", by simp,
        hasSubstr_of_append _ "master".data ['s'] (by exact hsub)⟩
    · exact ⟨"phd", by simp, hsub⟩
    · exact ⟨"associate", by simp, hsub⟩
    · exact ⟨"degree", by simp, hsub⟩
    · exact ⟨"certification", by simp, hsub⟩
    · exact ⟨"certificate", by simp, hsub⟩
  · rintro ⟨kw, hkw, hsub⟩
    rcases hkw with h | h | h | h | h | h | h <;> subst h
    · exact ⟨"bachelor", by simp, hsub⟩
    · exact ⟨"master", by simp, hsub⟩
    · exact ⟨"phd", by simp, hsub⟩
    · exact ⟨"associate", by simp, hsub⟩
    · exact ⟨"degree", by simp, hsub⟩
    · exact ⟨"certification", by simp, hsub⟩
    · exact ⟨"certificate", by simp, hsub⟩

/-- appending through a fold that appends one image per element. -/
theorem foldl_append_map {α β : Type} (f : α → β) (l : List α) (acc : List β) :
    l.foldl (fun a x => a ++ [f x]) acc = acc ++ l.map f := by
  induction l generalizing acc with
  | nil => simp
  | cons x xs ih => simp [ih]

/-- sum of a list divided elementwise. -/
theorem sum_map_div (l : List ℚ) (c : ℚ) :
    (l.map (fun x => x / c)).sum = l.sum / c := by
  induction l with
  | nil => simp
  | cons x xs ih => simp [ih, add_div]

/-- a list of positive rationals with at least one element has positive
sum. -/
theorem sum_pos_of_mem (l : List ℚ) (hpos : ∀ x ∈ l, 0 < x) (hne : l ≠ []) :
    0 < l.sum := by
  cases l with
  | nil => exact absurd rfl hne
  | cons x xs =>
    have hx : 0 < x := hpos x (by simp)
    have hxs : 0 ≤ xs.sum := by
      apply List.sum_nonneg
      intro y hy
      exact le_of_lt (hpos y (by simp [hy]))
    simpa using add_pos_of_pos_of_nonneg hx hxs

/-- the running score of the explicit-mode inner loop is affine in the
accumulator. -/
theorem scoreAndMatch_fold_acc (skills : List (String × ℚ)) (r : String)
    (a : ℚ) (m : List String) :
    (skills.foldl
        (fun acc sw =>
          if sw.1 ≠ "" && hasSubstr (lowerData r) sw.1.data then
            (acc.1 + sw.2, acc.2 ++ [sw.1])
          else acc)
        (a, m)).1 =
      a + (skills.foldl
        (fun acc sw =>
          if sw.1 ≠ "" && hasSubstr (lowerData r) sw.1.data then
            (acc.1 + sw.2, acc.2 ++ [sw.1])
          else acc)
        ((0 : ℚ), ([] : List String))).1 := by
  induction skills generalizing a m with
  | nil => simp
  | cons sw ps ih =>
    simp only [List.foldl_cons]
    by_cases hg : (sw.1 ≠ "" && hasSubstr (lowerData r) sw.1.data) = true
    · rw [if_pos hg, if_pos hg, ih, ih (0 + sw.2) ([] ++ [sw.1])]
      ring
    · rw [if_neg hg, if_neg hg, ih]

/-- unfolding equation for the explicit-mode score on a cons cell. -/
theorem scoreAndMatch_fst_cons (sw : String × ℚ) (ps : List (String × ℚ)) (r : String) :
    (scoreAndMatch (sw :: ps) r).1 =
      (if sw.1 ≠ "" && hasSubstr (lowerData r) sw.1.data then sw.2 else 0) +
        (scoreAndMatch ps r).1 := by
  unfold scoreAndMatch
  simp only [List.foldl_cons]
  by_cases hg : (sw.1 ≠ "" && hasSubstr (lowerData r) sw.1.data) = true
  · rw [if_pos hg, if_pos hg, scoreAndMatch_fold_acc ps r (0 + sw.2) ([] ++ [sw.1])]
    ring
  · rw [if_neg hg, if_neg hg]
    simp

/-- the explicit-mode score is the sum of the weights of the pairs that
pass the matching guard. -/
theorem scoreAndMatch_fst_eq_sum (skills : List (String × ℚ)) (r : String) :
    (scoreAndMatch skills r).1 =
      ((skills.filter (fun p => p.1 ≠ "" && hasSubstr (lowerData r) p.1.data)).map
        Prod.snd).sum := by
  induction skills with
  | nil => simp [scoreAndMatch]
  | cons sw ps ih =>
    rw [scoreAndMatch_fst_cons, ih, List.filter_cons]
    by_cases hg : (sw.1 ≠ "" && hasSubstr (lowerData r) sw.1.data) = true
    · simp only [Bool.and_eq_true, decide_eq_true_eq, ne_eq] at hg
      simp [hg]
    · simp only [Bool.and_eq_true, decide_eq_true_eq, ne_eq, not_and] at hg
      by_cases he : sw.1 = ""
      · simp [he]
      · simp [he, hg he]

theorem totalWeight_cons (sw : String × ℚ) (ps : List (String × ℚ)) :
    totalWeight (sw :: ps) = sw.2 + totalWeight ps := by
  simp [totalWeight]

theorem emptyWeight_cons (sw : String × ℚ) (ps : List (String × ℚ)) :
    emptyWeight (sw :: ps) = (if sw.1 = "" then sw.2 else 0) + emptyWeight ps := by
  unfold emptyWeight
  by_cases h : sw.1 = ""
  · rw [List.filter_cons_of_pos (by simpa using h)]
    simp [h]
  · rw [List.filter_cons_of_neg (by simpa using h)]
    simp [h]

theorem emptyWeight_nonneg (skills : List (String × ℚ))
    (hw : ∀ p ∈ skills, 0 ≤ p.2) : 0 ≤ emptyWeight skills := by
  unfold emptyWeight
  apply List.sum_nonneg
  intro x hx
  simp only [List.mem_map, List.mem_filter] at hx
  obtain ⟨p, ⟨hp, _⟩, hpx⟩ := hx
  exact hpx ▸ hw p hp

theorem scoreAndMatch_fst_nonneg (skills : List (String × ℚ)) (r : String)
    (hw : ∀ p ∈ skills, 0 ≤ p.2) : 0 ≤ (scoreAndMatch skills r).1 := by
  induction skills with
  | nil => simp [scoreAndMatch]
  | cons sw ps ih =>
    rw [scoreAndMatch_fst_cons]
    have h1 : 0 ≤ (if sw.1 ≠ "" && hasSubstr (lowerData r) sw.1.data then sw.2 else 0) := by
      split
      · exact hw sw (List.mem_cons_self _ _)
      · exact le_refl 0
    have h2 := ih (fun p hp => hw p (List.mem_cons_of_mem _ hp))
    linarith

/-- key inequality for the explicit mode: the score can never pick up the
weight carried by empty skill strings. -/
theorem scoreAndMatch_fst_le (skills : List (String × ℚ)) (r : String)
    (hw : ∀ p ∈ skills, 0 ≤ p.2) :
    (scoreAndMatch skills r).1 ≤ totalWeight skills - emptyWeight skills := by
  induction skills with
  | nil => simp [scoreAndMatch, totalWeight, emptyWeight]
  | cons sw ps ih =>
    have hsw : 0 ≤ sw.2 := hw sw (List.mem_cons_self _ _)
    have hps := ih (fun p hp => hw p (List.mem_cons_of_mem _ hp))
    rw [scoreAndMatch_fst_cons, totalWeight_cons, emptyWeight_cons]
    by_cases he : sw.1 = ""
    · have hg : ¬ (sw.1 ≠ "" && hasSubstr (lowerData r) sw.1.data) = true := by
        simp [he]
      rw [if_neg hg, if_pos he]
      linarith
    · rw [if_neg he]
      by_cases hg : (sw.1 ≠ "" && hasSubstr (lowerData r) sw.1.data) = true
      · rw [if_pos hg]
        linarith
      · rw [if_neg hg]
        linarith

/-- reaching the full total forces every pair (including the empty-named
ones) to pass the matching guard, provided weights are positive. -/
theorem scoreAndMatch_eq_total (skills : List (String × ℚ)) (r : String)
    (hw : ∀ p ∈ skills, 0 < p.2)
    (heq : (scoreAndMatch skills r).1 = totalWeight skills) :
    ∀ p ∈ skills, p.1 ≠ "" ∧ hasSubstr (lowerData r) p.1.data = true := by
  induction skills with
  | nil => simp
  | cons sw ps ih =>
    have hw' : ∀ p ∈ ps, 0 < p.2 := fun p hp => hw p (List.mem_cons_of_mem _ hp)
    have hw0 : ∀ p ∈ ps, 0 ≤ p.2 := fun p hp => le_of_lt (hw' p hp)
    have hle := scoreAndMatch_fst_le ps r hw0
    have hE := emptyWeight_nonneg ps hw0
    have hswpos : 0 < sw.2 := hw sw (List.mem_cons_self _ _)
    rw [scoreAndMatch_fst_cons, totalWeight_cons] at heq
    by_cases hg : (sw.1 ≠ "" && hasSubstr (lowerData r) sw.1.data) = true
    · rw [if_pos hg] at heq
      have heq' : (scoreAndMatch ps r).1 = totalWeight ps := by linarith
      intro p hp
      rcases List.mem_cons.mp hp with h | h
      · subst h
        simpa [Bool.and_eq_true, ne_eq, decide_eq_true_eq] using hg
      · exact ih hw' heq' p h
    · rw [if_neg hg] at heq
      exact absurd heq (by intro h; linarith)

/-! ### Deduplication lemmas -/

theorem dedupNew_sublist (l : List String) : ∀ seen, (dedupNew seen l).Sublist l := by
  induction l with
  | nil => intro seen; simp [dedupNew]
  | cons x xs ih =>
    intro seen
    unfold dedupNew
    by_cases h : seen.contains x
    · rw [if_pos h]
      exact (ih seen).cons x
    · rw [if_neg h]
      exact (ih (seen ++ [x])).cons₂ x

theorem mem_dedupNew {x : String} (l : List String) :
    ∀ seen, x ∈ dedupNew seen l → x ∉ seen := by
  induction l with
  | nil => intro seen h; simp [dedupNew] at h
  | cons y ys ih =>
    intro seen h
    unfold dedupNew at h
    by_cases hy : seen.contains y
    · rw [if_pos hy] at h
      exact ih seen h
    · rw [if_neg hy] at h
      rcases List.mem_cons.mp h with h | h
      · subst h
        intro hmem
        exact hy (List.elem_eq_true_of_mem hmem)
      · intro hmem
        exact ih (seen ++ [y]) h (by simp [hmem])

theorem dedupNew_nodup (l : List String) : ∀ seen, (dedupNew seen l).Nodup := by
  induction l with
  | nil => intro seen; simp [dedupNew]
  | cons y ys ih =>
    intro seen
    unfold dedupNew
    by_cases hy : seen.contains y
    · rw [if_pos hy]
      exact ih seen
    · rw [if_neg hy]
      refine List.nodup_cons.mpr ⟨?_, ih (seen ++ [y])⟩
      intro hmem
      exact mem_dedupNew ys (seen ++ [y]) hmem (by simp)

/-- `extractStep` restated through the keep-or-drop decision. -/
theorem extractStep_eq (acc : List String × List String) (t : List Char) :
    extractStep acc t =
      match keepClean (cleanToken t) with
      | none => acc
      | some x => if acc.2.contains x then acc else (acc.1 ++ [x], acc.2 ++ [x]) := by
  unfold extractStep keepClean
  by_cases h1 : cleanToken t = []
  · simp [h1]
  · by_cases h2 : (cleanToken t).any Char.isDigit
    · simp [h1, h2]
    · by_cases h3 : COMMON_WORDS.contains (String.mk (cleanToken t)) = true
      · have hmem : String.mk (cleanToken t) ∈ COMMON_WORDS :=
          List.mem_of_elem_eq_true h3
        simp [h1, h2, hmem]
      · have hnmem : String.mk (cleanToken t) ∉ COMMON_WORDS :=
          fun hm => h3 (List.elem_eq_true_of_mem hm)
        simp [h1, h2, hnmem]

/-- the `extract_job_skills` loop equals filtering the cleaned tokens and
then deduplicating with first-occurrence order, for any starting state. -/
theorem extract_fold (ts : List (List Char)) :
    ∀ clean seen : List String,
      (ts.foldl extractStep (clean, seen)).1 =
        clean ++ dedupNew seen (ts.filterMap (fun t => keepClean (cleanToken t))) := by
  induction ts with
  | nil => intro clean seen; simp [dedupNew]
  | cons t ts ih =>
    intro clean seen
    rw [List.foldl_cons, extractStep_eq, List.filterMap_cons]
    cases hk : keepClean (cleanToken t) with
    | none => exact ih clean seen
    | some x =>
      simp only
      unfold dedupNew
      by_cases h4 : seen.contains x = true
      · rw [if_pos h4, if_pos h4]
        exact ih clean seen
      · rw [if_neg h4, if_neg h4]
        rw [ih (clean ++ [x]) (seen ++ [x])]
        simp

/-! ### Sub-score bounds -/

theorem skill_ratio_bounds (m jt : List String) (hm : m.length ≤ jt.length) :
    0 ≤ skill_ratio m jt ∧ skill_ratio m jt ≤ 1 := by
  unfold skill_ratio
  by_cases h : jt ≠ []
  · rw [if_pos h]
    have hlen : jt.length ≠ 0 := by
      intro hl
      exact h (List.eq_nil_of_length_eq_zero hl)
    have hpos : (0 : ℚ) < (jt.length : ℚ) := by
      exact_mod_cast Nat.pos_of_ne_zero hlen
    constructor
    · positivity
    · rw [div_le_one hpos]
      exact_mod_cast hm
  · rw [if_neg h]
    norm_num

theorem experience_ratio_bounds (req cand : Nat) :
    0 ≤ experience_ratio req cand ∧ experience_ratio req cand ≤ 1 := by
  unfold experience_ratio
  by_cases h : 0 < req
  · rw [if_pos h]
    refine ⟨le_min (by positivity) zero_le_one, min_le_right _ _⟩
  · rw [if_neg h]
    norm_num

/-! ### Claim theorems -/

/-- **C1**: in composite mode the final score equals
`0.40·skillRatio + 0.20·semanticSim + 0.15·experienceRatio + 0.10·titleSim
+ 0.10·educationMatch` plus a constant that contributes exactly `0.05`
regardless of input; with every sub-score in `[0,1]` the final score lies
in `[0,1]`, a candidate with all sub-scores `1` scores exactly `1`, and
the bounds also hold along the program's composite scoring path for any
similarity values in `[0,1]`. -/
theorem C1_composite_formula_and_bounds :
    (∀ s1 s2 s3 s4 s5 : ℚ,
        compositeScore s1 s2 s3 s4 s5 -
            (0.40 * s1 + 0.20 * s2 + 0.15 * s3 + 0.10 * s4 + 0.10 * s5) = 0.05) ∧
      compositeScore 1 1 1 1 1 = 1 ∧
      (∀ s1 s2 s3 s4 s5 : ℚ, 0 ≤ s1 → s1 ≤ 1 → 0 ≤ s2 → s2 ≤ 1 → 0 ≤ s3 → s3 ≤ 1 →
          0 ≤ s4 → s4 ≤ 1 → 0 ≤ s5 → s5 ≤ 1 →
          0 ≤ compositeScore s1 s2 s3 s4 s5 ∧ compositeScore s1 s2 s3 s4 s5 ≤ 1) ∧
      (∀ (jobTokens : List String) (requiredYears : Nat) (jobRequiresDegree : Bool)
          (resumeText : String) (s t : ℚ), 0 ≤ s → s ≤ 1 → 0 ≤ t → t ≤ 1 →
          0 ≤ compositeCandidateScore jobTokens requiredYears jobRequiresDegree resumeText s t ∧
            compositeCandidateScore jobTokens requiredYears jobRequiresDegree resumeText s t ≤ 1) := by
  refine ⟨?_, ?_, ?_, ?_⟩
  · intro s1 s2 s3 s4 s5
    unfold compositeScore
    ring
  · unfold compositeScore
    norm_num
  · intro s1 s2 s3 s4 s5 a1 b1 a2 b2 a3 b3 a4 b4 a5 b5
    unfold compositeScore
    constructor <;> linarith
  · intro jt ry jrd r s t hs hs' ht ht'
    have h1 := skill_ratio_bounds (extract_resume_skills r jt) jt
      (List.length_filter_le _ _)
    have h3 := experience_ratio_bounds ry (parse_resume_years r)
    have h5 : 0 ≤ (if jrd then (if has_degree r then (1 : ℚ) else 0) else 1) ∧
        (if jrd then (if has_degree r then (1 : ℚ) else 0) else 1) ≤ 1 := by
      by_cases hj : jrd <;> by_cases hd : has_degree r <;> norm_num [hj, hd]
    simp only [compositeCandidateScore, compositeScore]
    constructor <;>
      linarith [h1.1, h1.2, h3.1, h3.2, h5.1, h5.2]

/-- witness for the hypotheses of C1 at a concrete input. -/
theorem C1_witness :
    0 ≤ compositeScore (1/2) (1/3) 1 0 1 ∧ compositeScore (1/2) (1/3) 1 0 1 ≤ 1 :=
  C1_composite_formula_and_bounds.2.2.1 (1/2) (1/3) 1 0 1 (by norm_num) (by norm_num)
    (by norm_num) (by norm_num) (by norm_num) (by norm_num) (by norm_num) (by norm_num)
    (by norm_num) (by norm_num)

/-- **C3** counterexample: the job description "phd required" mentions a
claimed keyword (phd), and the resume "java" has no degree keyword, so
the claim demands educationMatch = 0; the code computes 1 because its
job-side check knows only bachelor, master, degree, certification. -/
theorem C3_counterexample :
    education_match "phd required" "java" = 1 ∧
      claimEducationMatch "phd required" "java" = 0 := by
  exact ⟨rfl, rfl⟩

/-- **C3** (amended): educationMatch is 1 when the job description
contains none of bachelor, master, degree, certification (only four
keywords on the job side); otherwise it is 1 iff the resume contains one
of the seven claimed keywords (the source's nine-keyword resume list is
equivalent to the seven). -/
theorem C3_education_match_amended (d r : String) :
    education_match d r =
      if (["bachelor", "master", "degree", "certification"] : List String).any
          (fun kw => hasSubstr (lowerData d) kw.data) then
        (if sevenKeywordDegree r then 1 else 0)
      else 1 := by
  unfold education_match job_requires_degree
  rw [has_degree_eq_sevenKeywordDegree]

/-- **C4** counterexample: on the resume text "8+ years" the job-side
pattern (with its optional plus sign) finds 8, but `parse_resume_years`
uses a pattern without the optional plus sign and finds nothing — the two
parsers do not use the same pattern. -/
theorem C4_counterexample :
    parse_resume_years "8+ years" = 0 ∧ claimResumeYears "8+ years" = 8 := by
  exact ⟨by decide, by decide⟩

/-- **C4** (amended): requiredYears is the recruiter value if positive,
else the first `<int> +? (years|yrs)` occurrence in the description (0 if
none); candidateYears is the maximum integer found by the plus-less
pattern `<int> (years|yrs)` in the resume; experienceRatio is
`min(candidateYears/requiredYears, 1)` for positive requirement and 1
otherwise; and the claim's concrete examples hold. -/
theorem C4_experience_parsing_amended :
    (∀ (inp : Nat) (d : String), 0 < inp → effectiveRequiredYears inp d = inp) ∧
      (∀ d : String, effectiveRequiredYears 0 d = parse_required_years d) ∧
      (∀ req cand : Nat, 0 < req →
          experience_ratio req cand = min ((cand : ℚ) / (req : ℚ)) 1) ∧
      (∀ cand : Nat, experience_ratio 0 cand = 1) ∧
      parse_required_years "Requires 5+ years experience" = 5 ∧
      parse_resume_years "8 years of experience and 2 yrs internship" = 8 ∧
      experience_ratio 5 8 = 1 := by
  refine ⟨?_, ?_, ?_, ?_, by decide, by decide, ?_⟩
  · intro inp d h
    unfold effectiveRequiredYears
    rw [if_pos h]
  · intro d
    unfold effectiveRequiredYears
    rw [if_neg (by omega)]
  · intro req cand h
    unfold experience_ratio
    rw [if_pos h]
  · intro cand
    unfold experience_ratio
    rw [if_neg (by omega)]
  · unfold experience_ratio
    rw [if_pos (by norm_num), min_eq_right (by push_cast; norm_num)]

/-- witness for the hypotheses of C4 at concrete inputs. -/
theorem C4_witness :
    effectiveRequiredYears 3 "abc" = 3 ∧
      experience_ratio 2 1 = min (((1 : Nat) : ℚ) / ((2 : Nat) : ℚ)) 1 :=
  ⟨C4_experience_parsing_amended.1 3 "abc" (by norm_num),
    C4_experience_parsing_amended.2.2.1 2 1 (by norm_num)⟩

/-- **C8** counterexample: the token "python3" contains a digit without
any unit word, yet the tokenizer drops it — only "sql" survives. -/
theorem C8_counterexample :
    extract_job_skills "python3 sql" = ["sql"] ∧
      "python3" ∉ extract_job_skills "python3 sql" := by
  exact ⟨by decide, by decide⟩

/-- **C8** (amended): the tokenizer lowercases, splits on whitespace,
commas, slashes, backslashes and newlines, cleans each token, drops empty
tokens, drops every token containing a digit, drops stop words, and
deduplicates preserving first-seen order: it equals the
filter-then-dedup-first pipeline, its output has no duplicates, and it is
a subsequence of the filtered token stream (first-seen order). -/
theorem C8_tokenizer_amended (d : String) :
    extract_job_skills d = tokenPipeline d ∧
      (extract_job_skills d).Nodup ∧
      (tokenPipeline d).Sublist
        ((splitEvery isSepChar (lowerData d)).filterMap (fun t => keepClean (cleanToken t))) := by
  have h := extract_fold (splitEvery isSepChar (lowerData d)) [] []
  refine ⟨?_, ?_, ?_⟩
  · unfold extract_job_skills tokenPipeline dedupFirst
    simpa using h
  · unfold extract_job_skills
    rw [h]
    simpa using dedupNew_nodup _ []
  · unfold tokenPipeline dedupFirst
    exact dedupNew_sublist _ []

/-! ### Normalization lemmas for the explicit mode -/

theorem totalWeight_pos (sw : List (String × ℚ)) (hpos : ∀ p ∈ sw, 0 < p.2)
    (hne : sw ≠ []) : 0 < totalWeight sw := by
  unfold totalWeight
  apply sum_pos_of_mem
  · intro x hx
    obtain ⟨p, hp, rfl⟩ := List.mem_map.mp hx
    exact hpos p hp
  · exact fun h => hne (List.map_eq_nil_iff.mp h)

theorem totalWeight_normalize (sw : List (String × ℚ)) (h : totalWeight sw ≠ 0) :
    totalWeight (normalizeWeights sw) = 1 := by
  unfold totalWeight normalizeWeights
  rw [List.map_map]
  have h1 : (Prod.snd ∘ fun p : String × ℚ => (p.1, p.2 / totalWeight sw)) =
      (fun x => x / totalWeight sw) ∘ Prod.snd := rfl
  rw [h1, ← List.map_map, sum_map_div]
  exact div_self h

theorem normalizeWeights_pos (sw : List (String × ℚ)) (hT : 0 < totalWeight sw)
    (hpos : ∀ p ∈ sw, 0 < p.2) : ∀ p ∈ normalizeWeights sw, 0 < p.2 := by
  intro p hp
  obtain ⟨q, hq, rfl⟩ := List.mem_map.mp hp
  exact div_pos (hpos q hq) hT

/-- **C5** counterexample: with the entries `" "` (weight 1, truthy before
stripping, empty after) and `"python"` (weight 1), the code scores the
resume "python" at 1/2, while the claim's formula — normalized weights of
all skills occurring as substrings, the empty string being a substring of
everything — yields 1. -/
theorem C5_counterexample :
    (scoreAndMatch (normalizeWeights (user_skills_weights [⟨" ", 1⟩, ⟨"python", 1⟩]))
        "python").1 = 1/2 ∧
      claimExplicitScore (normalizeWeights (user_skills_weights [⟨" ", 1⟩, ⟨"python", 1⟩]))
        "python" = 1 := by
  have h0 : user_skills_weights [⟨" ", 1⟩, ⟨"python", 1⟩] = [("", 1), ("python", 1)] := by
    decide
  have h1 : normalizeWeights [("", (1 : ℚ)), ("python", 1)] =
      [("", 1/2), ("python", 1/2)] := by
    norm_num [normalizeWeights, totalWeight]
  rw [h0, h1]
  constructor
  · simp +decide [scoreAndMatch]
  · simp +decide [claimExplicitScore]
    norm_num

/-- **C5** (amended): with positive weights, normalization sums to 1, the
score is the sum of the normalized weights of the skills that are
*non-empty* and occur as substrings of the lowercased resume, it lies in
`[0,1]`, and it reaches 1 only if every skill matches (in particular every
skill is non-empty). -/
theorem C5_explicit_mode_amended (sw : List (String × ℚ)) (r : String)
    (hpos : ∀ p ∈ sw, 0 < p.2) (hne : sw ≠ []) :
    totalWeight (normalizeWeights sw) = 1 ∧
      0 ≤ (scoreAndMatch (normalizeWeights sw) r).1 ∧
      (scoreAndMatch (normalizeWeights sw) r).1 ≤ 1 ∧
      (scoreAndMatch (normalizeWeights sw) r).1 =
        (((normalizeWeights sw).filter
            (fun p => p.1 ≠ "" && hasSubstr (lowerData r) p.1.data)).map Prod.snd).sum ∧
      ((scoreAndMatch (normalizeWeights sw) r).1 = 1 →
        ∀ p ∈ normalizeWeights sw, p.1 ≠ "" ∧ hasSubstr (lowerData r) p.1.data = true) := by
  have hT : 0 < totalWeight sw := totalWeight_pos sw hpos hne
  have htot : totalWeight (normalizeWeights sw) = 1 :=
    totalWeight_normalize sw (ne_of_gt hT)
  have hnpos : ∀ p ∈ normalizeWeights sw, 0 < p.2 := normalizeWeights_pos sw hT hpos
  have hnn : ∀ p ∈ normalizeWeights sw, 0 ≤ p.2 := fun p hp => le_of_lt (hnpos p hp)
  refine ⟨htot, scoreAndMatch_fst_nonneg _ r hnn, ?_, scoreAndMatch_fst_eq_sum _ r, ?_⟩
  · have hle := scoreAndMatch_fst_le (normalizeWeights sw) r hnn
    have hE := emptyWeight_nonneg (normalizeWeights sw) hnn
    rw [htot] at hle
    linarith
  · intro h1
    apply scoreAndMatch_eq_total (normalizeWeights sw) r hnpos
    rw [htot, h1]

/-- witness for the hypotheses of C5, including the claim's own
[2, 3, 5] example: normalized weights 0.2/0.3/0.5 and a score of 0.7 when
only the first and third skills match. -/
theorem C5_witness :
    (totalWeight (normalizeWeights [("python", (1 : ℚ))]) = 1 ∧
        0 ≤ (scoreAndMatch (normalizeWeights [("python", (1 : ℚ))]) "python").1 ∧
        (scoreAndMatch (normalizeWeights [("python", (1 : ℚ))]) "python").1 ≤ 1 ∧
        (scoreAndMatch (normalizeWeights [("python", (1 : ℚ))]) "python").1 =
          (((normalizeWeights [("python", (1 : ℚ))]).filter
              (fun p => p.1 ≠ "" && hasSubstr (lowerData "python") p.1.data)).map
            Prod.snd).sum ∧
        ((scoreAndMatch (normalizeWeights [("python", (1 : ℚ))]) "python").1 = 1 →
          ∀ p ∈ normalizeWeights [("python", (1 : ℚ))],
            p.1 ≠ "" ∧ hasSubstr (lowerData "python") p.1.data = true)) ∧
      normalizeWeights [("alpha", 2), ("beta", 3), ("gamma", 5)] =
        [("alpha", 0.2), ("beta", 0.3), ("gamma", 0.5)] ∧
      (scoreAndMatch (normalizeWeights [("alpha", 2), ("beta", 3), ("gamma", 5)])
          "alpha gamma").1 = 0.7 := by
  refine ⟨C5_explicit_mode_amended [("python", 1)] "python" ?_ (by simp), ?_, ?_⟩
  · intro p hp
    simp only [List.mem_singleton] at hp
    rw [hp]
    norm_num
  · norm_num [normalizeWeights, totalWeight]
  · have h1 : normalizeWeights [("alpha", (2 : ℚ)), ("beta", 3), ("gamma", 5)] =
        [("alpha", 0.2), ("beta", 0.3), ("gamma", 0.5)] := by
      norm_num [normalizeWeights, totalWeight]
    rw [h1]
    simp +decide [scoreAndMatch]
    norm_num

/-- **C10**: an entry whose skill text is non-empty but strips to the
empty string keeps its weight in the normalization denominator yet can
never match, so every candidate's explicit-mode score is at most 1 minus
that entry's normalized weight, and 1 is unreachable. -/
theorem C10_whitespace_skill_entry
    (entries : List SkillEntry) (e : SkillEntry) (resume : String)
    (he : e ∈ entries) (hne : e.skill ≠ "") (hstrip : pyStrip e.skill = "")
    (hw : ∀ x ∈ entries, x.skill ≠ "" → 0 < x.weight) :
    (scoreAndMatch (normalizeWeights (user_skills_weights entries)) resume).1 ≤
        1 - e.weight / totalWeight (user_skills_weights entries) ∧
      (scoreAndMatch (normalizeWeights (user_skills_weights entries)) resume).1 < 1 := by
  have hpair : ("", e.weight) ∈ user_skills_weights entries := by
    apply List.mem_filterMap.mpr
    refine ⟨e, he, ?_⟩
    rw [if_pos hne, hstrip]
    rfl
  have hallpos : ∀ p ∈ user_skills_weights entries, 0 < p.2 := by
    intro p hp
    obtain ⟨x, hx, hfx⟩ := List.mem_filterMap.mp hp
    by_cases hxs : x.skill ≠ ""
    · rw [if_pos hxs] at hfx
      have hp2 : p = (pyLower (pyStrip x.skill), x.weight) := (Option.some.inj hfx).symm
      rw [hp2]
      exact hw x hx hxs
    · rw [if_neg hxs] at hfx
      exact absurd hfx (by simp)
  have hT : 0 < totalWeight (user_skills_weights entries) :=
    totalWeight_pos _ hallpos (List.ne_nil_of_mem hpair)
  have htot : totalWeight (normalizeWeights (user_skills_weights entries)) = 1 :=
    totalWeight_normalize _ (ne_of_gt hT)
  have hnn : ∀ p ∈ normalizeWeights (user_skills_weights entries), 0 ≤ p.2 :=
    fun p hp => le_of_lt (normalizeWeights_pos _ hT hallpos p hp)
  have hnpair : ("", e.weight / totalWeight (user_skills_weights entries)) ∈
      normalizeWeights (user_skills_weights entries) :=
    List.mem_map.mpr ⟨("", e.weight), hpair, rfl⟩
  have hEmem : e.weight / totalWeight (user_skills_weights entries) ∈
      (((normalizeWeights (user_skills_weights entries)).filter
          (fun p => p.1 = "")).map Prod.snd) := by
    apply List.mem_map.mpr
    refine ⟨("", e.weight / totalWeight (user_skills_weights entries)), ?_, rfl⟩
    exact List.mem_filter.mpr ⟨hnpair, by simp⟩
  have hE : e.weight / totalWeight (user_skills_weights entries) ≤
      emptyWeight (normalizeWeights (user_skills_weights entries)) := by
    apply List.single_le_sum _ _ hEmem
    intro x hx
    obtain ⟨p, hp, rfl⟩ := List.mem_map.mp hx
    exact hnn p (List.mem_filter.mp hp).1
  have hle := scoreAndMatch_fst_le (normalizeWeights (user_skills_weights entries))
    resume hnn
  rw [htot] at hle
  have hwpos : 0 < e.weight / totalWeight (user_skills_weights entries) :=
    div_pos (hw e he hne) hT
  constructor
  · linarith
  · linarith

/-- witness for the hypotheses of C10 at a concrete input. -/
theorem C10_witness :
    (scoreAndMatch (normalizeWeights (user_skills_weights [⟨" ", 1⟩, ⟨"python", 1⟩]))
        "python").1 ≤
        1 - (1 : ℚ) / totalWeight (user_skills_weights [⟨" ", 1⟩, ⟨"python", 1⟩]) ∧
      (scoreAndMatch (normalizeWeights (user_skills_weights [⟨" ", 1⟩, ⟨"python", 1⟩]))
          "python").1 < 1 :=
  C10_whitespace_skill_entry [⟨" ", 1⟩, ⟨"python", 1⟩] ⟨" ", 1⟩ "python"
    (List.mem_cons_self _ _) (by decide) (by decide)
    (by
      intro x hx hxs
      rcases List.mem_cons.mp hx with h | h
      · rw [h]
        norm_num
      · simp only [List.mem_singleton] at h
        rw [h]
        norm_num)

/-- **C9**: both scoring loops decompose into a pure per-candidate map:
each candidate's score, matched skills and analysis inputs depend only on
the job configuration, the candidate's own resume text and (in composite
mode) the candidate's own two corpus-relative similarity entries, so
re-running the pipeline on the same batch reproduces identical lists. -/
theorem C9_per_candidate_purity (skills : List (String × ℚ)) (resumes : List String)
    (jobTokens : List String) (requiredYears : Nat) (jobRequiresDegree : Bool)
    (rows : List (String × ℚ × ℚ)) :
    weightedScoresRun skills resumes =
        (resumes.map (fun r => (scoreAndMatch skills r).1),
          resumes.map (fun r => (scoreAndMatch skills r).2)) ∧
      compositeScoresRun jobTokens requiredYears jobRequiresDegree rows =
        rows.map (fun row =>
          compositeCandidateScore jobTokens requiredYears jobRequiresDegree
            row.1 row.2.1 row.2.2) := by
  constructor
  · have h : ∀ acc : List ℚ × List (List String),
        resumes.foldl
            (fun acc r =>
              (acc.1 ++ [(scoreAndMatch skills r).1], acc.2 ++ [(scoreAndMatch skills r).2]))
            acc =
          (acc.1 ++ resumes.map (fun r => (scoreAndMatch skills r).1),
            acc.2 ++ resumes.map (fun r => (scoreAndMatch skills r).2)) := by
      induction resumes with
      | nil => intro acc; simp
      | cons r rs ih =>
        intro acc
        simp only [List.foldl_cons, List.map_cons]
        rw [ih]
        simp
    unfold weightedScoresRun
    simpa using h ([], [])
  · unfold compositeScoresRun
    exact (foldl_append_map
      (fun row : String × ℚ × ℚ =>
        compositeCandidateScore jobTokens requiredYears jobRequiresDegree
          row.1 row.2.1 row.2.2) rows []).trans (by simp)

/-! ### The sorting claims -/

theorem argsortStable_valid : ValidArgsort argsortStable := by
  intro xs
  constructor
  · exact List.perm_insertionSort _ _
  · haveI : IsTotal Nat (fun i j => getQ xs i ≤ getQ xs j) := ⟨fun i j => le_total _ _⟩
    haveI : IsTrans Nat (fun i j => getQ xs i ≤ getQ xs j) :=
      ⟨fun a b c hab hbc => le_trans hab hbc⟩
    exact List.sorted_insertionSort _ _

theorem tieReversingArgsort_valid : ValidArgsort tieReversingArgsort := by
  intro xs
  unfold tieReversingArgsort
  by_cases h : xs = [1, 1]
  · rw [if_pos h]
    subst h
    constructor
    · decide
    · refine List.pairwise_cons.mpr ⟨?_, List.pairwise_singleton _ _⟩
      intro j hj
      simp only [List.mem_singleton] at hj
      subst hj
      norm_num [getQ]
  · rw [if_neg h]
    exact argsortStable_valid xs

/-- **C2**: the ranking sort is `df.sort_values("Score", ascending=False)`
with the default `kind='quicksort'`; under the documented argsort contract
(permutation, values ascending) there is an implementation that reorders
the tied candidates of an all-tied two-candidate batch — the output order
`[1, 0]` reverses the input order — so stability is not guaranteed by the
code, whereas a stable kind (`argsortStable`) would preserve the input
order `[0, 1]` through the same pandas descending wrapper. -/
theorem C2_sort_contract_permits_tie_reorder :
    (∃ f : List ℚ → List Nat, ValidArgsort f ∧ nargsortDesc f [1, 1] = [1, 0]) ∧
      nargsortDesc argsortStable [1, 1] = [0, 1] := by
  refine ⟨⟨tieReversingArgsort, tieReversingArgsort_valid, ?_⟩, ?_⟩
  · rfl
  · rfl

/-! ### The degenerate-batch claims -/

/-- **C6**: a degenerate batch makes the scoring run raise.  The job
description "of the and" has an empty skill-token set (every token is in
`COMMON_WORDS`), and with both uploaded resumes empty no document of the
tf-idf corpus contributes a vocabulary term — `fit_transform` raises
`ValueError: empty vocabulary` instead of completing with an all-zero
ranking.  `S` is scikit-learn's English stop-word list; only the
membership of "of", "the" and "and" is used. -/
theorem C6_degenerate_batch_raises (S : List String) (semSims titleSims : List ℚ)
    (h1 : "of" ∈ S) (h2 : "the" ∈ S) (h3 : "and" ∈ S) :
    extract_job_skills "of the and" = [] ∧
      compositeRunE S ⟨"Engineer", "of the and"⟩ 0 ["", ""] semSims titleSims =
        Except.error "empty vocabulary" := by
  refine ⟨by decide, ?_⟩
  have hd : docHasVocab S "of the and" = false := by
    have ht : sklearnTokens "of the and" = ["of", "the", "and"] := by decide
    unfold docHasVocab
    rw [ht]
    simp [h1, h2, h3]
  have he : docHasVocab S "" = false := by
    unfold docHasVocab
    rw [show sklearnTokens "" = [] from rfl]
    rfl
  have hall : ((("of the and" : String)) :: ["", ""]).all (fun d => !docHasVocab S d) = true := by
    simp [hd, he]
  unfold compositeRunE
  simp [hall]

/-- witness for the hypotheses of C6 at a concrete stop-word list. -/
theorem C6_witness :
    extract_job_skills "of the and" = [] ∧
      compositeRunE ["of", "the", "and"] ⟨"Engineer", "of the and"⟩ 0 ["", ""] [] [] =
        Except.error "empty vocabulary" :=
  C6_degenerate_batch_raises ["of", "the", "and"] [] [] (by simp) (by simp) (by simp)

/-- **C7**: a candidate with empty resume text can abort the batch — with
the job description "the and of a" (only stop words survive tokenization)
and a single empty resume, the tf-idf corpus has an empty vocabulary and
the run raises instead of scoring the candidate.  When the batch does not
raise, the claim's regression fixture holds: for a job with no degree
keyword and no experience requirement, the empty-resume candidate's score
is exactly 0.15 + 0.10 + 0.05 = 0.30. -/
theorem C7_empty_resume_raises_and_fixture (S : List String)
    (h1 : "the" ∈ S) (h2 : "and" ∈ S) (h3 : "of" ∈ S) :
    compositeRunE S ⟨"Engineer", "the and of a"⟩ 0 [""] [0] [0] =
        Except.error "empty vocabulary" ∧
      job_requires_degree "software engineer role" = false ∧
      effectiveRequiredYears 0 "software engineer role" = 0 ∧
      compositeCandidateScore (extract_job_skills "software engineer role") 0 false "" 0 0 =
        0.30 := by
  refine ⟨?_, by decide, by decide, ?_⟩
  · have hd : docHasVocab S "the and of a" = false := by
      have ht : sklearnTokens "the and of a" = ["the", "and", "of"] := by decide
      unfold docHasVocab
      rw [ht]
      simp [h1, h2, h3]
    have he : docHasVocab S "" = false := by
      unfold docHasVocab
      rw [show sklearnTokens "" = [] from rfl]
      rfl
    have hall : ((("the and of a" : String)) :: [""]).all (fun d => !docHasVocab S d) = true := by
      simp [hd, he]
    unfold compositeRunE
    simp [hall]
  · have hjt : extract_job_skills "software engineer role" =
        ["software", "engineer", "role"] := by decide
    rw [compositeCandidateScore, hjt]
    have h2' : extract_resume_skills "" ["software", "engineer", "role"] = [] := by decide
    have h3' : parse_resume_years "" = 0 := by decide
    rw [h2', h3']
    norm_num [skill_ratio, experience_ratio, compositeScore]

/-- witness for the hypotheses of C7 at a concrete stop-word list. -/
theorem C7_witness :
    compositeRunE ["the", "and", "of"] ⟨"Engineer", "the and of a"⟩ 0 [""] [0] [0] =
        Except.error "empty vocabulary" ∧
      job_requires_degree "software engineer role" = false ∧
      effectiveRequiredYears 0 "software engineer role" = 0 ∧
      compositeCandidateScore (extract_job_skills "software engineer role") 0 false "" 0 0 =
        0.30 :=
  C7_empty_resume_raises_and_fixture ["the", "and", "of"] (by simp) (by simp) (by simp)

end ResumeRanker
